import Mathlib

/-!
Verification of the queuectl job-queue core: the `Job` record and its state
machine (`job.py`), the storage mapping (`storage.py`), the queue facade
(`queue_manager.py`) and the worker loop's retry policy (`worker.py`),
shallowly embedded as executable Lean definitions.  Timestamps are passed in
explicitly as strings (the code reads the clock); fresh ids are passed in
explicitly (the code draws a UUID).
-/

namespace QueueCtl

/-- The five job states of the `JobState` enum in `job.py`. -/
inductive JobState where
  | PENDING
  | PROCESSING
  | COMPLETED
  | FAILED
  | DEAD
deriving DecidableEq, Repr

/-- `JobState.value`: the lowercase string name of the state. -/
def JobState.value : JobState → String
  | .PENDING => "pending"
  | .PROCESSING => "processing"
  | .COMPLETED => "completed"
  | .FAILED => "failed"
  | .DEAD => "dead"

/-- The in-memory `Job` object of `job.py` (field for field). -/
structure Job where
  id : String
  command : String
  state : String
  attempts : Nat
  max_retries : Nat
  created_at : String
  updated_at : String
  last_error : Option String
  output : Option String
deriving DecidableEq, Repr

/-- Python truthiness of an `Optional[str]`: `None` and `""` are falsy. -/
def strTruthy : Option String → Bool
  | none => false
  | some s => s ≠ ""

/-- Python `x or d` for `x : Optional[str]`: yields `d` when `x` is `None` or `""`. -/
def pyOr : Option String → String → String
  | none, d => d
  | some s, d => if s = "" then d else s

/-- `Job.__init__`: every keyword argument made explicit; `freshId` stands for
the generated UUID string and `now` for the current timestamp string. -/
def Job.init (command : String) (job_id : Option String) (state : String)
    (attempts : Nat) (max_retries : Nat) (created_at : Option String)
    (updated_at : Option String) (last_error : Option String)
    (output : Option String) (freshId : String) (now : String) : Job :=
  { id := pyOr job_id freshId
    command := command
    state := state
    attempts := attempts
    max_retries := max_retries
    created_at := pyOr created_at now
    updated_at := pyOr updated_at now
    last_error := last_error
    output := output }

/-- The dictionary produced by `Job.to_dict` (all nine keys always present). -/
structure JobDict where
  id : String
  command : String
  state : String
  attempts : Nat
  max_retries : Nat
  created_at : String
  updated_at : String
  last_error : Option String
  output : Option String
deriving DecidableEq, Repr

/-- `Job.to_dict`. -/
def Job.to_dict (j : Job) : JobDict :=
  { id := j.id
    command := j.command
    state := j.state
    attempts := j.attempts
    max_retries := j.max_retries
    created_at := j.created_at
    updated_at := j.updated_at
    last_error := j.last_error
    output := j.output }

/-- `Job.from_dict`: delegates to `Job.__init__` with the dictionary's values. -/
def Job.from_dict (d : JobDict) (freshId : String) (now : String) : Job :=
  Job.init d.command (some d.id) d.state d.attempts d.max_retries
    (some d.created_at) (some d.updated_at) d.last_error d.output freshId now

/-- `Job.update_state`: sets the state string and refreshes `updated_at`;
`last_error` and `output` are overwritten only by truthy values. -/
def Job.update_state (j : Job) (state : JobState) (error : Option String)
    (output : Option String) (now : String) : Job :=
  { j with
    state := state.value
    updated_at := now
    last_error := if strTruthy error then error else j.last_error
    output := if strTruthy output then output else j.output }

/-- `Job.increment_attempts`. -/
def Job.increment_attempts (j : Job) (now : String) : Job :=
  { j with attempts := j.attempts + 1, updated_at := now }

/-- `Job.should_retry`: strict comparison of `attempts` against `max_retries`. -/
def Job.should_retry (j : Job) : Bool :=
  j.attempts < j.max_retries

/-- `Job.get_backoff_delay`: `base ** attempts` with exact integer arithmetic. -/
def Job.get_backoff_delay (j : Job) (base : Nat) : Nat :=
  base ^ j.attempts

/-- `Worker._handle_job_failure`: increments `attempts`, then either routes the
job through `failed` back to `pending` (returning the backoff delay slept) or
straight to `dead` (returning no delay). -/
def handle_job_failure (j : Job) (error : String) (base : Nat) (now : String) :
    Job × Option Nat :=
  let j1 := j.increment_attempts now
  if j1.should_retry then
    let j2 := j1.update_state JobState.FAILED (some error) none now
    let backoff := j2.get_backoff_delay base
    let j3 := j2.update_state JobState.PENDING (some error) none now
    (j3, some backoff)
  else
    (j1.update_state JobState.DEAD (some error) none now, none)

/-- The persisted jobs collection of `storage.py`: the JSON object mapping
job id to serialized job, modelled as an association list in insertion order
(Python dicts preserve insertion order). -/
abbrev Store := List (String × Job)

/-- `Storage.save_job`: upserts the record under key `job.id`. -/
def save_job (s : Store) (j : Job) : Store :=
  if s.any (fun p => p.1 = j.id) then
    s.map (fun p => if p.1 = j.id then (p.1, j) else p)
  else
    s ++ [(j.id, j)]

/-- `Storage.get_job`: lookup by id, `none` when absent. -/
def get_job (s : Store) (job_id : String) : Option Job :=
  (s.find? (fun p => p.1 = job_id)).map (fun p => p.2)

/-- `Storage.get_jobs_by_state`: the values whose state matches, in store order. -/
def get_jobs_by_state (s : Store) (st : JobState) : List Job :=
  (s.filter (fun p => p.2.state = st.value)).map (fun p => p.2)

/-- The five state names in the `JobState` enum order used by
`Storage.get_job_counts` to initialise the counts dictionary. -/
def stateNames : List String :=
  ["pending", "processing", "completed", "failed", "dead"]

/-- One `counts[job_data['state']] += 1` step: a `KeyError` (state name absent
from the counts dictionary) is modelled as `none`. -/
def bumpCount (counts : List (String × Nat)) (st : String) :
    Option (List (String × Nat)) :=
  if counts.any (fun p => p.1 = st) then
    some (counts.map (fun p => if p.1 = st then (p.1, p.2 + 1) else p))
  else
    none

/-- `Storage.get_job_counts`: initialise every state name to 0, then bump the
entry for each stored job's state. -/
def get_job_counts (s : Store) : Option (List (String × Nat)) :=
  s.foldl (fun acc p => acc.bind (fun c => bumpCount c p.2.state))
    (some (stateNames.map (fun st => (st, 0))))

/-- `QueueManager.enqueue`: applies the configured default `max_retries` when
the argument is `None`, builds a fresh pending job and persists it. -/
def enqueue (s : Store) (defaultMaxRetries : Nat) (command : String)
    (job_id : Option String) (max_retries : Option Nat)
    (freshId : String) (now : String) : Store × Job :=
  let mr := match max_retries with
    | none => defaultMaxRetries
    | some m => m
  let job := Job.init command job_id JobState.PENDING.value 0 mr
    none none none none freshId now
  (save_job s job, job)

/-- `QueueManager.retry_job`: succeeds only on an existing `dead` job, which it
resets to zero attempts and re-queues as `pending`. -/
def retry_job (s : Store) (job_id : String) (now : String) : Store × Bool :=
  match get_job s job_id with
  | none => (s, false)
  | some job =>
    if job.state ≠ JobState.DEAD.value then (s, false)
    else
      let job1 : Job := { job with attempts := 0 }
      let job2 := job1.update_state JobState.PENDING none none now
      (save_job s job2, true)

/-- Outcome of executing a job's command in `Worker._process_job`: a zero exit
status with captured stdout, or any failure (non-zero exit with its stderr or
synthesized message, timeout, spawn error) with its error string. -/
inductive ExecOutcome where
  | success (stdout : String)
  | failure (error : String)

/-- `Worker._get_next_job`: claim the first pending job (persisting the
`processing` transition), else return the first retryable `failed` job
unclaimed, else nothing. -/
def get_next_job (s : Store) (now : String) : Store × Option Job :=
  match get_jobs_by_state s JobState.PENDING with
  | [] =>
    match (get_jobs_by_state s JobState.FAILED).find?
        (fun j => j.should_retry) with
    | some j => (s, some j)
    | none => (s, none)
  | job :: _ =>
    let job1 := job.update_state JobState.PROCESSING none none now
    (save_job s job1, some job1)

/-- `Worker._process_job` after the subprocess returns: classify the outcome,
apply the retry policy on failure, and persist the final record. -/
def process_job (s : Store) (j : Job) (outcome : ExecOutcome) (base : Nat)
    (now : String) : Store :=
  match outcome with
  | .success stdout =>
    save_job s (j.update_state JobState.COMPLETED none (some stdout) now)
  | .failure error =>
    save_job s (handle_job_failure j error base now).1

/-- State of the system: the persisted store plus the worker's in-flight job
(the `current_job` a single worker holds between claiming and finishing). -/
structure SysState where
  store : Store
  current : Option Job
deriving DecidableEq

/-- The initial system state: empty store, idle worker. -/
def initState : SysState := ⟨[], none⟩

/-- One observable step of the system: enqueuing a job under a fresh id, a
manual retry, the worker claiming (or failing to claim) its next job, or the
worker finishing execution of its claimed job.  `dflt`, `base`, `freshId` and
`now` vary per step because configuration and the clock are re-read each
time. -/
inductive Step : SysState → SysState → Prop where
  | enq (σ : SysState) (dflt : Nat) (command : String)
      (job_id : Option String) (mr : Option Nat) (freshId now : String)
      (hfresh : get_job σ.store
        (enqueue σ.store dflt command job_id mr freshId now).2.id = none) :
      Step σ ⟨(enqueue σ.store dflt command job_id mr freshId now).1, σ.current⟩
  | manualRetry (σ : SysState) (job_id now : String) :
      Step σ ⟨(retry_job σ.store job_id now).1, σ.current⟩
  | claim (σ : SysState) (now : String) (hidle : σ.current = none) :
      Step σ ⟨(get_next_job σ.store now).1, (get_next_job σ.store now).2⟩
  | finish (σ : SysState) (j : Job) (outcome : ExecOutcome) (base : Nat)
      (now : String) (hcur : σ.current = some j) :
      Step σ ⟨process_job σ.store j outcome base now, none⟩

/-- Reachability of a system state from the initial state. -/
def Reachable (σ : SysState) : Prop :=
  Relation.ReflTransGen Step initState σ

/-- Well-formed store: every value carries its own key as id, keys distinct. -/
def WFStore (s : Store) : Prop :=
  (∀ p ∈ s, p.2.id = p.1) ∧ (s.map Prod.fst).Nodup

/-- No persisted record is in the transient `failed` state (the worker writes
`failed` only in memory, between the two `update_state` calls of
`_handle_job_failure`, and persists the `pending` or `dead` outcome). -/
def NoFailedStored (s : Store) : Prop :=
  ∀ p ∈ s, p.2.state ≠ "failed"

/-- System invariant: the store is well formed, holds no `failed` record, and
the worker's claimed job is stored verbatim in state `processing`. -/
def Inv (σ : SysState) : Prop :=
  WFStore σ.store ∧ NoFailedStored σ.store ∧
    ∀ j, σ.current = some j →
      get_job σ.store j.id = some j ∧ j.state = "processing"

/-- How a single step may change the stored record under one id: freshly
created pending, manually re-queued from dead, claimed from pending,
completed from processing, or run through the failure policy from
processing. -/
inductive JobChange : Option Job → Job → Prop where
  | created (j : Job) (hstate : j.state = "pending") (hatt : j.attempts = 0) :
      JobChange none j
  | retried (j : Job) (now : String) (hdead : j.state = "dead") :
      JobChange (some j)
        (Job.update_state { j with attempts := 0 } JobState.PENDING none none now)
  | claimed (j : Job) (now : String) (hp : j.state = "pending") :
      JobChange (some j) (j.update_state JobState.PROCESSING none none now)
  | finished (j : Job) (out now : String) (hp : j.state = "processing") :
      JobChange (some j) (j.update_state JobState.COMPLETED none (some out) now)
  | failedOut (j : Job) (e now : String) (base : Nat) (hp : j.state = "processing") :
      JobChange (some j) (handle_job_failure j e base now).1

/-- A freshly enqueued pending job used as concrete test input. -/
def exJobA : Job := ⟨"a", "cmd", "pending", 0, 3, "t0", "t0", none, none⟩

/-- `exJobA` after the worker claims it. -/
def exJobP : Job := ⟨"a", "cmd", "processing", 0, 3, "t0", "t1", none, none⟩

/-- `exJobP` after a successful execution with output `out`. -/
def exJobC : Job := ⟨"a", "cmd", "completed", 0, 3, "t0", "t2", none, some "out"⟩

/-- `exJobP` after one retryable failure (back in `pending`, error kept). -/
def exJobF : Job := ⟨"a", "cmd", "pending", 1, 3, "t0", "t2", some "err", none⟩

/-- `exJobF` after the worker claims it again. -/
def exJobFP : Job := ⟨"a", "cmd", "processing", 1, 3, "t0", "t3", some "err", none⟩

/-- A job with `max_retries = 1` about to fail for the first time. -/
def exMr1Job : Job := ⟨"m", "cmd", "processing", 0, 1, "t0", "t0", none, none⟩

/-- A job whose next failure produces a backoff exponent of 3. -/
def exAtt2Job : Job := ⟨"b", "cmd", "processing", 2, 5, "t0", "t0", none, none⟩

/-- A dead-lettered job with three recorded attempts. -/
def exDeadJob : Job := ⟨"d1", "cmd", "dead", 3, 3, "t0", "t1", some "boom", none⟩

/-- `exDeadJob` after a successful manual retry at time `t2`. -/
def exDeadRetried : Job := ⟨"d1", "cmd", "pending", 0, 3, "t0", "t2", some "boom", none⟩

/-- A store holding only the dead job. -/
def exDeadStore : Store := [("d1", exDeadJob)]

/-- A store holding one pending and one dead job. -/
def exStore2 : Store := [("a", exJobA), ("d1", exDeadJob)]

/-- System state after enqueuing `exJobA`. -/
def exσ1 : SysState := ⟨[("a", exJobA)], none⟩

/-- System state after the worker claims `exJobA`. -/
def exσ2 : SysState := ⟨[("a", exJobP)], some exJobP⟩

/-- System state after the claimed job completes with output `out`. -/
def exσ3 : SysState := ⟨[("a", exJobC)], none⟩

/-- System state after the claimed job fails once retryably. -/
def exσ4 : SysState := ⟨[("a", exJobF)], none⟩

/-- System state after the worker claims the once-failed job again. -/
def exσ5 : SysState := ⟨[("a", exJobFP)], some exJobFP⟩

/-- Searching the overwritten list for the saved id finds the new value. -/
theorem find_overwrite (l : List (String × Job)) (j : Job)
    (h : ∃ p ∈ l, p.1 = j.id) :
    ((l.map (fun p => if p.1 = j.id then (p.1, j) else p)).find?
      (fun p => p.1 = j.id)).map (fun p => p.2) = some j := by
  induction l with
  | nil => simp at h
  | cons p t ih =>
    by_cases hp : p.1 = j.id
    · rw [List.map_cons, if_pos hp,
        List.find?_cons_of_pos _ (by simpa using hp)]
      rfl
    · rw [List.map_cons, if_neg hp,
        List.find?_cons_of_neg _ (by simpa using hp)]
      apply ih
      rcases h with ⟨q, hq, hqid⟩
      rcases List.mem_cons.mp hq with rfl | hq'
      · exact absurd hqid hp
      · exact ⟨q, hq', hqid⟩

/-- Searching past entries that all miss the saved id finds the appended
entry. -/
theorem find_append_fresh (l : List (String × Job)) (j : Job)
    (h : ∀ p ∈ l, ¬ p.1 = j.id) :
    ((l ++ [(j.id, j)]).find? (fun p => p.1 = j.id)).map (fun p => p.2) =
      some j := by
  induction l with
  | nil =>
    rw [List.nil_append, List.find?_cons_of_pos _ (by simp)]
    rfl
  | cons p t ih =>
    rw [List.cons_append,
      List.find?_cons_of_neg _ (by simpa using h p (by simp))]
    exact ih (fun q hq => h q (by simp [hq]))

/-- Overwriting the value under `j.id` leaves searches for other keys alone. -/
theorem find_overwrite_ne (l : List (String × Job)) (j : Job) (k : String)
    (hk : k ≠ j.id) :
    (l.map (fun p => if p.1 = j.id then (p.1, j) else p)).find?
      (fun p => p.1 = k) = l.find? (fun p => p.1 = k) := by
  induction l with
  | nil => rfl
  | cons p t ih =>
    by_cases hp : p.1 = j.id
    · have hpk : ¬ p.1 = k := fun hc => hk (hc ▸ hp)
      rw [List.map_cons, if_pos hp,
        List.find?_cons_of_neg _ (by simpa using hpk),
        List.find?_cons_of_neg _ (by simpa using hpk)]
      exact ih
    · rw [List.map_cons, if_neg hp]
      by_cases hpk : p.1 = k
      · rw [List.find?_cons_of_pos _ (by simpa using hpk),
          List.find?_cons_of_pos _ (by simpa using hpk)]
      · rw [List.find?_cons_of_neg _ (by simpa using hpk),
          List.find?_cons_of_neg _ (by simpa using hpk)]
        exact ih

/-- Appending the entry for `j.id` leaves searches for other keys alone. -/
theorem find_append_ne (l : List (String × Job)) (j : Job) (k : String)
    (hk : k ≠ j.id) :
    (l ++ [(j.id, j)]).find? (fun p => p.1 = k) =
      l.find? (fun p => p.1 = k) := by
  induction l with
  | nil =>
    rw [List.nil_append,
      List.find?_cons_of_neg _ (by simpa using fun hc => hk hc.symm)]
  | cons p t ih =>
    by_cases hpk : p.1 = k
    · rw [List.cons_append, List.find?_cons_of_pos _ (by simpa using hpk),
        List.find?_cons_of_pos _ (by simpa using hpk)]
    · rw [List.cons_append, List.find?_cons_of_neg _ (by simpa using hpk),
        List.find?_cons_of_neg _ (by simpa using hpk)]
      exact ih

/-- Saving a job makes it the value looked up under its own id. -/
theorem get_job_save_self (s : Store) (j : Job) :
    get_job (save_job s j) j.id = some j := by
  unfold save_job get_job
  by_cases h : s.any (fun p => p.1 = j.id)
  · rw [if_pos h]
    apply find_overwrite
    simpa using h
  · rw [if_neg h]
    apply find_append_fresh
    intro p hp hc
    exact h (List.any_eq_true.mpr ⟨p, hp, by simpa using hc⟩)

/-- Saving a job does not change lookups under other ids. -/
theorem get_job_save_ne (s : Store) (j : Job) (k : String) (hk : k ≠ j.id) :
    get_job (save_job s j) k = get_job s k := by
  unfold save_job get_job
  by_cases h : s.any (fun p => p.1 = j.id)
  · rw [if_pos h, find_overwrite_ne s j k hk]
  · rw [if_neg h, find_append_ne s j k hk]

/-- Every entry of `save_job s j` is either an untouched entry of `s` whose
key differs from `j.id`, or the saved entry itself. -/
theorem mem_save_job (s : Store) (j : Job) (q : String × Job)
    (hq : q ∈ save_job s j) : (q ∈ s ∧ q.1 ≠ j.id) ∨ (q.1 = j.id ∧ q.2 = j) := by
  unfold save_job at hq
  by_cases h : s.any (fun p => p.1 = j.id)
  · rw [if_pos h] at hq
    rcases List.mem_map.mp hq with ⟨p, hp, hq⟩
    by_cases hpj : p.1 = j.id
    · rw [if_pos hpj] at hq
      right
      rw [← hq]
      exact ⟨hpj, rfl⟩
    · rw [if_neg hpj] at hq
      left
      rw [← hq]
      exact ⟨hp, hpj⟩
  · rw [if_neg h] at hq
    rcases List.mem_append.mp hq with hq | hq
    · left
      refine ⟨hq, fun hc => ?_⟩
      exact h (List.any_eq_true.mpr ⟨q, hq, by simpa using hc⟩)
    · right
      rw [List.mem_singleton.mp hq]
      exact ⟨rfl, rfl⟩

/-- The keys of `save_job s j`: unchanged on overwrite, extended by the fresh
key `j.id` on insert. -/
theorem keys_save_job (s : Store) (j : Job) :
    (save_job s j).map Prod.fst = s.map Prod.fst ∨
      ((save_job s j).map Prod.fst = s.map Prod.fst ++ [j.id] ∧
        j.id ∉ s.map Prod.fst) := by
  unfold save_job
  by_cases h : s.any (fun p => p.1 = j.id)
  · left
    rw [if_pos h, List.map_map]
    apply List.map_congr_left
    intro p _
    by_cases hp : p.1 = j.id
    · simp [hp]
    · simp [hp]
  · right
    rw [if_neg h]
    refine ⟨by simp, fun hc => ?_⟩
    rcases List.mem_map.mp hc with ⟨p, hp, hpe⟩
    exact h (List.any_eq_true.mpr ⟨p, hp, by simpa using hpe⟩)

/-- Saving preserves store well-formedness. -/
theorem wf_save_job (s : Store) (j : Job) (hwf : WFStore s) :
    WFStore (save_job s j) := by
  constructor
  · intro q hq
    rcases mem_save_job s j q hq with ⟨hmem, _⟩ | ⟨hk, hv⟩
    · exact hwf.1 q hmem
    · rw [hk, hv]
  · rcases keys_save_job s j with hk | ⟨hk, hnotin⟩
    · rw [hk]; exact hwf.2
    · rw [hk]
      simpa using List.Nodup.append hwf.2 (List.nodup_singleton j.id)
        (by simpa using hnotin)

/-- A successful lookup comes from a store entry under that key. -/
theorem get_job_mem (s : Store) (k : String) (j : Job)
    (h : get_job s k = some j) : (k, j) ∈ s := by
  unfold get_job at h
  rcases Option.map_eq_some'.mp h with ⟨p, hfind, hsnd⟩
  have hp := List.find?_some hfind
  have hmem := List.mem_of_find?_eq_some hfind
  simp only [decide_eq_true_eq] at hp
  have : p = (k, j) := by
    cases p
    simp only at hp hsnd
    rw [hp, hsnd]
  rw [← this]
  exact hmem

/-- With distinct keys, membership determines the lookup result. -/
theorem get_job_of_mem (s : Store) (k : String) (j : Job)
    (hnd : (s.map Prod.fst).Nodup) (hmem : (k, j) ∈ s) :
    get_job s k = some j := by
  unfold get_job
  induction s with
  | nil => simp at hmem
  | cons p t ih =>
    simp only [List.map_cons, List.nodup_cons] at hnd
    rcases List.mem_cons.mp hmem with heq | hmem'
    · rw [← heq, List.find?_cons_of_pos _ (by simp)]
      rfl
    · by_cases hpk : p.1 = k
      · exfalso
        apply hnd.1
        rw [hpk]
        exact List.mem_map.mpr ⟨(k, j), hmem', rfl⟩
      · rw [List.find?_cons_of_neg _ (by simpa using hpk)]
        exact ih hnd.2 hmem'

/-- The failure handler preserves the job's id. -/
theorem handle_job_failure_id (j : Job) (e : String) (base : Nat) (now : String) :
    (handle_job_failure j e base now).1.id = j.id := by
  unfold handle_job_failure
  by_cases h : (j.increment_attempts now).should_retry
  · rw [if_pos h]
    rfl
  · rw [if_neg h]
    rfl

/-- The failure handler increments `attempts` exactly once. -/
theorem handle_job_failure_attempts (j : Job) (e : String) (base : Nat)
    (now : String) :
    (handle_job_failure j e base now).1.attempts = j.attempts + 1 := by
  unfold handle_job_failure
  by_cases h : (j.increment_attempts now).should_retry
  · rw [if_pos h]
    rfl
  · rw [if_neg h]
    rfl

/-- The failure handler never persists the transient `failed` state: the
resulting record is `pending` or `dead`. -/
theorem handle_job_failure_state (j : Job) (e : String) (base : Nat)
    (now : String) :
    (handle_job_failure j e base now).1.state = "pending" ∨
      (handle_job_failure j e base now).1.state = "dead" := by
  unfold handle_job_failure
  by_cases h : (j.increment_attempts now).should_retry
  · rw [if_pos h]
    left
    rfl
  · rw [if_neg h]
    right
    rfl

/-- The failure handler records the error when it is nonempty, otherwise
leaves `last_error` alone (both branches call `update_state` with it). -/
theorem handle_job_failure_last_error (j : Job) (e : String) (base : Nat)
    (now : String) :
    (handle_job_failure j e base now).1.last_error =
      if strTruthy (some e) then some e else j.last_error := by
  unfold handle_job_failure
  by_cases h : (j.increment_attempts now).should_retry
  · rw [if_pos h]
    by_cases he : strTruthy (some e)
    · simp [Job.update_state, Job.increment_attempts, he]
    · simp [Job.update_state, Job.increment_attempts, he]
  · rw [if_neg h]
    rfl

/-- C1: on a failed attempt the worker first increments `attempts` and then
decides by strict comparison: post-increment `attempts < max_retries` retries
the job (it goes back to `pending` and a backoff delay is slept), while
`attempts ≥ max_retries` sets the state to `dead` with the error recorded and
returns no delay; in particular a job with `max_retries = 1` is dead-lettered
after its first failure. -/
theorem failure_increments_then_retries_or_dead_letters (j : Job) (e : String)
    (base : Nat) (now : String) (he : e ≠ "") :
    ((handle_job_failure j e base now).1.attempts = j.attempts + 1)
    ∧ (j.attempts + 1 < j.max_retries →
        (handle_job_failure j e base now).1.state = "pending"
        ∧ (handle_job_failure j e base now).2.isSome = true)
    ∧ (j.max_retries ≤ j.attempts + 1 →
        (handle_job_failure j e base now).1.state = "dead"
        ∧ (handle_job_failure j e base now).1.last_error = some e
        ∧ (handle_job_failure j e base now).2 = none)
    ∧ (j.max_retries = 1 → (handle_job_failure j e base now).1.state = "dead") := by
  have hretry : (j.increment_attempts now).should_retry =
      decide (j.attempts + 1 < j.max_retries) := rfl
  refine ⟨handle_job_failure_attempts j e base now, ?_, ?_, ?_⟩
  · intro hlt
    simp only [handle_job_failure]
    rw [hretry, decide_eq_true hlt]
    exact ⟨rfl, rfl⟩
  · intro hge
    have hnot : ¬ (j.attempts + 1 < j.max_retries) := by omega
    refine ⟨?_, ?_, ?_⟩
    · simp only [handle_job_failure]
      rw [hretry, decide_eq_false hnot]
      rfl
    · rw [handle_job_failure_last_error j e base now,
        if_pos (by simpa [strTruthy] using he)]
    · simp only [handle_job_failure]
      rw [hretry, decide_eq_false hnot]
      rfl
  · intro h1
    have hnot : ¬ (j.attempts + 1 < j.max_retries) := by omega
    simp only [handle_job_failure]
    rw [hretry, decide_eq_false hnot]
    rfl

/-- C2: the backoff delay slept on a retryable failure is `backoff_base`
raised to the post-increment attempt count, by exact integer
exponentiation. -/
theorem backoff_is_base_pow_post_increment_attempts (j : Job) (e : String)
    (base : Nat) (now : String) (hlt : j.attempts + 1 < j.max_retries) :
    (handle_job_failure j e base now).2 = some (base ^ (j.attempts + 1)) := by
  have hretry : (j.increment_attempts now).should_retry =
      decide (j.attempts + 1 < j.max_retries) := rfl
  simp only [handle_job_failure]
  rw [hretry, decide_eq_true hlt]
  rfl

/-- Witness for C1 at concrete inputs: one failure of a fresh three-retry job
retries it (attempts 1, back to pending), one failure of a `max_retries = 1`
job dead-letters it. -/
theorem failure_policy_witness :
    ((handle_job_failure exJobP "err" 2 "t2").1.attempts = 1)
    ∧ ((handle_job_failure exJobP "err" 2 "t2").1.state = "pending")
    ∧ ((handle_job_failure exMr1Job "err" 2 "t1").1.state = "dead") := by
  refine ⟨?_, ?_, ?_⟩
  · exact (failure_increments_then_retries_or_dead_letters exJobP "err" 2 "t2"
      (by decide)).1
  · exact ((failure_increments_then_retries_or_dead_letters exJobP "err" 2 "t2"
      (by decide)).2.1 (by decide)).1
  · exact (failure_increments_then_retries_or_dead_letters exMr1Job "err" 2 "t1"
      (by decide)).2.2.2 rfl

/-- Witness for C2: post-increment attempts 1 with base 2 sleeps 2; attempts 3
with base 2 sleeps 8. -/
theorem backoff_witness :
    (handle_job_failure exJobP "e" 2 "t").2 = some 2
    ∧ (handle_job_failure exAtt2Job "e" 2 "t").2 = some 8 :=
  ⟨backoff_is_base_pow_post_increment_attempts exJobP "e" 2 "t" (by decide),
    backoff_is_base_pow_post_increment_attempts exAtt2Job "e" 2 "t" (by decide)⟩

/-- C3: `retry` succeeds exactly on an existing dead job; on success the job
is persisted with zero attempts in state `pending`; on any failure the store
is untouched; and a second retry of the same job fails. -/
theorem retry_succeeds_only_on_dead (s : Store) (id now : String)
    (hWF : ∀ p ∈ s, p.2.id = p.1) :
    ((retry_job s id now).2 = true ↔
      ∃ j, get_job s id = some j ∧ j.state = "dead")
    ∧ (∀ j, get_job s id = some j → j.state = "dead" →
        ∃ j', get_job (retry_job s id now).1 id = some j'
          ∧ j'.attempts = 0 ∧ j'.state = "pending")
    ∧ ((retry_job s id now).2 = false → (retry_job s id now).1 = s)
    ∧ (∀ now', (retry_job s id now).2 = true →
        (retry_job (retry_job s id now).1 id now').2 = false) := by
  cases hg : get_job s id with
  | none =>
    have hres : retry_job s id now = (s, false) := by
      simp only [retry_job, hg]
    refine ⟨?_, ?_, ?_, ?_⟩
    · rw [hres]
      simp
    · intro j hj
      exact absurd hj (by simp)
    · intro _
      rw [hres]
    · intro now' htrue
      rw [hres] at htrue
      simp at htrue
  | some j0 =>
    by_cases hd : j0.state = "dead"
    · have hcond : ¬ (j0.state ≠ JobState.DEAD.value) := by
        simp [JobState.value, hd]
      have hid : j0.id = id := hWF (id, j0) (get_job_mem s id j0 hg)
      have hres : retry_job s id now =
          (save_job s (Job.update_state { j0 with attempts := 0 }
            JobState.PENDING none none now), true) := by
        simp only [retry_job, hg]
        rw [if_neg hcond]
      have hkey : (Job.update_state { j0 with attempts := 0 }
          JobState.PENDING none none now).id = id := hid
      have hsave : get_job (retry_job s id now).1 id =
          some (Job.update_state { j0 with attempts := 0 }
            JobState.PENDING none none now) := by
        rw [hres, ← hkey]
        exact get_job_save_self s _
      refine ⟨?_, ?_, ?_, ?_⟩
      · rw [hres]
        exact ⟨fun _ => ⟨j0, rfl, hd⟩, fun _ => rfl⟩
      · intro j hj hjd
        exact ⟨Job.update_state { j0 with attempts := 0 }
          JobState.PENDING none none now, hsave, rfl, rfl⟩
      · intro hfalse
        rw [hres] at hfalse
        simp at hfalse
      · intro now' _
        obtain ⟨s', hs'⟩ : ∃ s', (retry_job s id now).1 = s' := ⟨_, rfl⟩
        rw [hs'] at hsave ⊢
        have hne : (Job.update_state { j0 with attempts := 0 }
            JobState.PENDING none none now).state ≠ JobState.DEAD.value := by
          intro hc
          rw [show (Job.update_state { j0 with attempts := 0 }
            JobState.PENDING none none now).state = "pending" from rfl] at hc
          exact absurd hc (by decide)
        simp only [retry_job, hsave]
        rw [if_pos hne]
    · have hcond : j0.state ≠ JobState.DEAD.value := by
        simpa [JobState.value] using hd
      have hres : retry_job s id now = (s, false) := by
        simp only [retry_job, hg]
        rw [if_pos hcond]
      refine ⟨?_, ?_, ?_, ?_⟩
      · rw [hres]
        constructor
        · intro hfalse
          exact absurd hfalse (by simp)
        · rintro ⟨j, hj, hjd⟩
          have : j0 = j := Option.some.inj hj
          exact absurd (this ▸ hjd) hd
      · intro j hj hjd
        have : j0 = j := Option.some.inj hj
        exact absurd (this ▸ hjd) hd
      · intro _
        rw [hres]
      · intro now' htrue
        rw [hres] at htrue
        simp at htrue

/-- Witness for C3: the first retry of a stored dead job succeeds and the
second retry of the same job fails. -/
theorem retry_witness :
    (retry_job exDeadStore "d1" "t2").2 = true
    ∧ (retry_job (retry_job exDeadStore "d1" "t2").1 "d1" "t3").2 = false := by
  have h := retry_succeeds_only_on_dead exDeadStore "d1" "t2" (by decide)
  have h1 : (retry_job exDeadStore "d1" "t2").2 = true :=
    h.1.mpr ⟨exDeadJob, rfl, rfl⟩
  exact ⟨h1, h.2.2.2 "t3" h1⟩

/-- C4: `enqueue` returns a pending record with zero attempts, generates an id
when none is supplied, applies the configured default `max_retries` when it is
omitted, and the returned record is the persisted one. -/
theorem enqueue_persists_pending_record (s : Store) (dflt : Nat)
    (command : String) (job_id : Option String) (mr : Option Nat)
    (freshId now : String) :
    ((enqueue s dflt command job_id mr freshId now).2.state = "pending")
    ∧ ((enqueue s dflt command job_id mr freshId now).2.attempts = 0)
    ∧ (job_id = none →
        (enqueue s dflt command job_id mr freshId now).2.id = freshId)
    ∧ (mr = none →
        (enqueue s dflt command job_id mr freshId now).2.max_retries = dflt)
    ∧ (get_job (enqueue s dflt command job_id mr freshId now).1
        (enqueue s dflt command job_id mr freshId now).2.id =
        some (enqueue s dflt command job_id mr freshId now).2) := by
  refine ⟨rfl, rfl, ?_, ?_, ?_⟩
  · rintro rfl
    rfl
  · rintro rfl
    rfl
  · exact get_job_save_self s _

/-- Witness for C4: enqueuing with no id and no `max_retries` into the empty
store under default 3. -/
theorem enqueue_witness :
    ((enqueue [] 3 "cmd" none none "f1" "t0").2.id = "f1")
    ∧ ((enqueue [] 3 "cmd" none none "f1" "t0").2.max_retries = 3)
    ∧ ((enqueue [] 3 "cmd" none none "f1" "t0").2.state = "pending") := by
  have h := enqueue_persists_pending_record [] 3 "cmd" none none "f1" "t0"
  exact ⟨h.2.2.1 rfl, h.2.2.2.1 rfl, h.1⟩

/-- C8: serializing a job and reconstructing it restores every field, for any
record with the nonempty id and timestamps the system always creates. -/
theorem roundtrip_to_dict_from_dict (j : Job) (freshId now : String)
    (h1 : j.id ≠ "") (h2 : j.created_at ≠ "") (h3 : j.updated_at ≠ "") :
    Job.from_dict (Job.to_dict j) freshId now = j := by
  unfold Job.from_dict Job.to_dict Job.init pyOr
  simp only
  rw [if_neg h1, if_neg h2, if_neg h3]

/-- Witness for C8: round trip of a concrete once-failed job. -/
theorem roundtrip_witness :
    Job.from_dict (Job.to_dict exJobF) "z" "tz" = exJobF :=
  roundtrip_to_dict_from_dict exJobF "z" "tz" (by decide) (by decide) (by decide)

/-- C10: updating a job's state with an absent or empty error leaves
`last_error` unchanged, with an absent or empty output leaves `output`
unchanged; a successful command with empty standard output keeps the completed
job's previous `output` value in the store. -/
theorem empty_error_or_output_not_recorded (j : Job) (st : JobState)
    (now : String) (o e : Option String) (s : Store) (base : Nat) :
    ((j.update_state st none o now).last_error = j.last_error)
    ∧ ((j.update_state st (some "") o now).last_error = j.last_error)
    ∧ ((j.update_state st e none now).output = j.output)
    ∧ ((j.update_state st e (some "") now).output = j.output)
    ∧ ((get_job (process_job s j (ExecOutcome.success "") base now) j.id).map
        (fun x => x.output) = some j.output) := by
  have hfalse : strTruthy (some "") = false := by decide
  refine ⟨rfl, ?_, rfl, ?_, ?_⟩
  · simp [Job.update_state, hfalse]
  · simp [Job.update_state, hfalse]
  · have hid : (j.update_state JobState.COMPLETED none (some "") now).id =
      j.id := rfl
    show (get_job (save_job s
      (j.update_state JobState.COMPLETED none (some "") now)) j.id).map
        (fun x => x.output) = some j.output
    rw [← hid, get_job_save_self]
    simp [Job.update_state, hfalse]

/-- Bumping a key that no entry carries leaves the counts list unchanged. -/
theorem map_bump_no_match (t : List (String × Nat)) (st : String)
    (h : ∀ q ∈ t, ¬ q.1 = st) :
    t.map (fun q => if q.1 = st then (q.1, q.2 + 1) else q) = t := by
  induction t with
  | nil => rfl
  | cons q r ih =>
    rw [List.map_cons, if_neg (h q (by simp)),
      ih (fun x hx => h x (by simp [hx]))]

/-- Bumping a key that occurs exactly once raises the total by one. -/
theorem bump_sum (c : List (String × Nat)) (st : String)
    (hmem : st ∈ c.map Prod.fst) (hnd : (c.map Prod.fst).Nodup) :
    ((c.map (fun q => if q.1 = st then (q.1, q.2 + 1) else q)).map
      Prod.snd).sum = (c.map Prod.snd).sum + 1 := by
  induction c with
  | nil => simp at hmem
  | cons p t ih =>
    simp only [List.map_cons, List.nodup_cons] at hnd
    by_cases hp : p.1 = st
    · have htail : ∀ q ∈ t, ¬ q.1 = st := by
        intro q hq hc
        exact hnd.1 (hp ▸ hc ▸ List.mem_map.mpr ⟨q, hq, rfl⟩)
      rw [List.map_cons, if_pos hp, map_bump_no_match t st htail]
      simp only [List.map_cons, List.sum_cons]
      omega
    · have hmem2 : st = p.1 ∨ st ∈ t.map Prod.fst := by
        rw [List.map_cons] at hmem
        exact List.mem_cons.mp hmem
      have hmem' : st ∈ t.map Prod.fst := by
        rcases hmem2 with heq | hin
        · exact absurd heq.symm hp
        · exact hin
      rw [List.map_cons, if_neg hp]
      simp only [List.map_cons, List.sum_cons, ih hmem' hnd.2]
      omega

/-- Folding the bump step over valid jobs keeps the key list and adds the
number of jobs to the total. -/
theorem counts_foldl (l : List (String × Job)) (c : List (String × Nat))
    (hk : c.map Prod.fst = stateNames)
    (hall : ∀ p ∈ l, p.2.state ∈ stateNames) :
    ∃ c', l.foldl (fun acc p => acc.bind (fun c0 => bumpCount c0 p.2.state))
        (some c) = some c'
      ∧ c'.map Prod.fst = stateNames
      ∧ (c'.map Prod.snd).sum = (c.map Prod.snd).sum + l.length := by
  induction l generalizing c with
  | nil => exact ⟨c, rfl, hk, by simp⟩
  | cons p t ih =>
    have hmem : p.2.state ∈ c.map Prod.fst := by
      rw [hk]
      exact hall p (by simp)
    have hany : c.any (fun q => q.1 = p.2.state) = true := by
      rcases List.mem_map.mp hmem with ⟨q, hq, hqe⟩
      exact List.any_eq_true.mpr ⟨q, hq, by simpa using hqe⟩
    have hbump : bumpCount c p.2.state =
        some (c.map (fun q => if q.1 = p.2.state then (q.1, q.2 + 1) else q)) := by
      unfold bumpCount
      rw [if_pos hany]
    have hnd : (c.map Prod.fst).Nodup := by
      rw [hk]
      decide
    have hk1 : (c.map (fun q => if q.1 = p.2.state then (q.1, q.2 + 1) else q)).map
        Prod.fst = stateNames := by
      rw [← hk, List.map_map]
      apply List.map_congr_left
      intro q _
      by_cases hq : q.1 = p.2.state
      · simp [hq]
      · simp [hq]
    rcases ih (c.map (fun q => if q.1 = p.2.state then (q.1, q.2 + 1) else q))
        hk1 (fun q hq => hall q (by simp [hq])) with ⟨c', hfold, hkeys, hsum⟩
    refine ⟨c', ?_, hkeys, ?_⟩
    · simp only [List.foldl_cons, Option.some_bind, hbump]
      exact hfold
    · rw [hsum, bump_sum c p.2.state hmem hnd]
      simp only [List.length_cons]
      omega

/-- C9: when every stored record carries one of the five valid states,
`counts()` yields a mapping keyed exactly by the five state names whose
values add up to the number of stored jobs. -/
theorem counts_cover_states_and_sum_to_total (s : Store)
    (hall : ∀ p ∈ s, p.2.state ∈ stateNames) :
    ∃ counts, get_job_counts s = some counts
      ∧ counts.map Prod.fst = stateNames
      ∧ (counts.map Prod.snd).sum = s.length := by
  rcases counts_foldl s (stateNames.map (fun st => (st, 0)))
      (by decide) hall with ⟨c', h1, h2, h3⟩
  refine ⟨c', h1, h2, ?_⟩
  rw [h3, show ((stateNames.map (fun st => (st, 0))).map Prod.snd).sum = 0 from
    by decide]
  omega

/-- Witness for C9: a store with one pending and one dead job has counts
keyed by the five states summing to 2. -/
theorem counts_witness :
    ∃ counts, get_job_counts exStore2 = some counts
      ∧ counts.map Prod.fst = stateNames
      ∧ (counts.map Prod.snd).sum = 2 :=
  counts_cover_states_and_sum_to_total exStore2 (by decide)

/-- A store with no `failed` record yields an empty `failed` listing. -/
theorem no_failed_list (s : Store) (h : NoFailedStored s) :
    get_jobs_by_state s JobState.FAILED = [] := by
  unfold get_jobs_by_state
  rw [List.map_eq_nil_iff, List.filter_eq_nil_iff]
  intro p hp
  simpa [JobState.value] using h p hp

/-- Every job listed for a state comes from a store entry with that state. -/
theorem mem_of_jobs_by_state (s : Store) (st : JobState) (j : Job)
    (h : j ∈ get_jobs_by_state s st) :
    ∃ k, (k, j) ∈ s ∧ j.state = st.value := by
  unfold get_jobs_by_state at h
  rcases List.mem_map.mp h with ⟨p, hp, hpe⟩
  have hmem := List.mem_of_mem_filter hp
  have hpred := List.of_mem_filter hp
  refine ⟨p.1, ?_, ?_⟩
  · have hpj : p = (p.1, j) := by
      cases p
      simp only at hpe
      rw [hpe]
    rw [← hpj]
    exact hmem
  · rw [← hpe]
    simpa using hpred

/-- Per-id characterization of how one system step can change the store:
either the stored record under `id` is untouched, or it undergoes one of the
five constructor-listed changes. -/
theorem step_change (σ σ' : SysState) (hInv : Inv σ) (hstep : Step σ σ')
    (id : String) :
    get_job σ'.store id = get_job σ.store id ∨
      ∃ jn, get_job σ'.store id = some jn
        ∧ JobChange (get_job σ.store id) jn := by
  obtain ⟨⟨hWF, hND⟩, hNF, hCur⟩ := hInv
  cases hstep with
  | enq dflt command job_id mr freshId now hfresh =>
    by_cases hid : id = (enqueue σ.store dflt command job_id mr freshId now).2.id
    · right
      refine ⟨(enqueue σ.store dflt command job_id mr freshId now).2, ?_, ?_⟩
      · show get_job (enqueue σ.store dflt command job_id mr freshId now).1 id =
          some (enqueue σ.store dflt command job_id mr freshId now).2
        rw [hid]
        exact get_job_save_self σ.store _
      · rw [hid, hfresh]
        exact JobChange.created _ rfl rfl
    · left
      show get_job (enqueue σ.store dflt command job_id mr freshId now).1 id =
        get_job σ.store id
      exact get_job_save_ne σ.store _ id hid
  | manualRetry rid now =>
    cases hg : get_job σ.store rid with
    | none =>
      left
      show get_job (retry_job σ.store rid now).1 id = get_job σ.store id
      rw [show (retry_job σ.store rid now).1 = σ.store from by
        simp only [retry_job, hg]]
    | some j0 =>
      by_cases hd : j0.state = "dead"
      · have hcond : ¬ (j0.state ≠ JobState.DEAD.value) := by
          simp [JobState.value, hd]
        have hid0 : j0.id = rid := hWF (rid, j0) (get_job_mem σ.store rid j0 hg)
        have hres : (retry_job σ.store rid now).1 =
            save_job σ.store (Job.update_state { j0 with attempts := 0 }
              JobState.PENDING none none now) := by
          simp only [retry_job, hg]
          rw [if_neg hcond]
        by_cases hidr : id = rid
        · right
          refine ⟨Job.update_state { j0 with attempts := 0 }
            JobState.PENDING none none now, ?_, ?_⟩
          · show get_job (retry_job σ.store rid now).1 id = _
            rw [hres, hidr, ← hid0]
            exact get_job_save_self σ.store _
          · rw [hidr, hg]
            exact JobChange.retried j0 now hd
        · left
          show get_job (retry_job σ.store rid now).1 id = get_job σ.store id
          rw [hres]
          apply get_job_save_ne
          rw [show (Job.update_state { j0 with attempts := 0 }
            JobState.PENDING none none now).id = rid from hid0]
          exact hidr
      · left
        have hcond : j0.state ≠ JobState.DEAD.value := by
          simpa [JobState.value] using hd
        show get_job (retry_job σ.store rid now).1 id = get_job σ.store id
        rw [show (retry_job σ.store rid now).1 = σ.store from by
          simp only [retry_job, hg]
          rw [if_pos hcond]]
  | claim now hidle =>
    cases hp : get_jobs_by_state σ.store JobState.PENDING with
    | nil =>
      left
      have hfl : get_jobs_by_state σ.store JobState.FAILED = [] :=
        no_failed_list σ.store hNF
      show get_job (get_next_job σ.store now).1 id = get_job σ.store id
      rw [show (get_next_job σ.store now).1 = σ.store from by
        simp only [get_next_job, hp, hfl, List.find?]]
    | cons j0 rest =>
      have hj0 : ∃ k, (k, j0) ∈ σ.store ∧ j0.state = JobState.PENDING.value := by
        apply mem_of_jobs_by_state
        rw [hp]
        simp
      rcases hj0 with ⟨k, hkmem, hj0p⟩
      have hk : j0.id = k := hWF (k, j0) hkmem
      have hget : get_job σ.store j0.id = some j0 := by
        rw [hk]
        exact get_job_of_mem σ.store k j0 hND hkmem
      have hres : (get_next_job σ.store now).1 =
          save_job σ.store (j0.update_state JobState.PROCESSING none none now) := by
        simp only [get_next_job, hp]
      by_cases hid : id = j0.id
      · right
        refine ⟨j0.update_state JobState.PROCESSING none none now, ?_, ?_⟩
        · show get_job (get_next_job σ.store now).1 id = _
          rw [hres, hid]
          exact get_job_save_self σ.store _
        · rw [hid, hget]
          exact JobChange.claimed j0 now hj0p
      · left
        show get_job (get_next_job σ.store now).1 id = get_job σ.store id
        rw [hres]
        exact get_job_save_ne σ.store _ id hid
  | finish j outcome base now hcur =>
    obtain ⟨hjget, hjproc⟩ := hCur j hcur
    cases outcome with
    | success out =>
      by_cases hid : id = j.id
      · right
        refine ⟨j.update_state JobState.COMPLETED none (some out) now, ?_, ?_⟩
        · show get_job (process_job σ.store j (ExecOutcome.success out) base now)
            id = _
          rw [hid]
          exact get_job_save_self σ.store _
        · rw [hid, hjget]
          exact JobChange.finished j out now hjproc
      · left
        show get_job (process_job σ.store j (ExecOutcome.success out) base now)
          id = get_job σ.store id
        exact get_job_save_ne σ.store _ id hid
    | failure e =>
      have hidj : (handle_job_failure j e base now).1.id = j.id :=
        handle_job_failure_id j e base now
      by_cases hid : id = j.id
      · right
        refine ⟨(handle_job_failure j e base now).1, ?_, ?_⟩
        · show get_job (process_job σ.store j (ExecOutcome.failure e) base now)
            id = _
          rw [hid, ← hidj]
          exact get_job_save_self σ.store _
        · rw [hid, hjget]
          exact JobChange.failedOut j e now base hjproc
      · left
        show get_job (process_job σ.store j (ExecOutcome.failure e) base now)
          id = get_job σ.store id
        apply get_job_save_ne
        rw [hidj]
        exact hid

/-- One step preserves the system invariant. -/
theorem inv_step (σ σ' : SysState) (hInv : Inv σ) (hstep : Step σ σ') :
    Inv σ' := by
  obtain ⟨⟨hWF, hND⟩, hNF, hCur⟩ := hInv
  cases hstep with
  | enq dflt command job_id mr freshId now hfresh =>
    refine ⟨?_, ?_, ?_⟩
    · exact wf_save_job σ.store _ ⟨hWF, hND⟩
    · intro q hq
      rcases mem_save_job σ.store
          (enqueue σ.store dflt command job_id mr freshId now).2 q hq with
        ⟨hmem, _⟩ | ⟨_, hv⟩
      · exact hNF q hmem
      · rw [hv]
        intro hc
        rw [show (enqueue σ.store dflt command job_id mr freshId now).2.state =
          "pending" from rfl] at hc
        exact absurd hc (by decide)
    · intro jc hjc
      obtain ⟨hg, hp⟩ := hCur jc hjc
      refine ⟨?_, hp⟩
      have hne : jc.id ≠
          (enqueue σ.store dflt command job_id mr freshId now).2.id := by
        intro hc
        rw [← hc] at hfresh
        rw [hfresh] at hg
        exact absurd hg (by simp)
      show get_job (enqueue σ.store dflt command job_id mr freshId now).1
        jc.id = some jc
      have h2 : get_job (enqueue σ.store dflt command job_id mr freshId now).1
          jc.id = get_job σ.store jc.id :=
        get_job_save_ne σ.store _ jc.id hne
      rw [h2]
      exact hg
  | manualRetry rid now =>
    cases hg : get_job σ.store rid with
    | none =>
      rw [show (⟨(retry_job σ.store rid now).1, σ.current⟩ : SysState) = σ from
        by rw [show (retry_job σ.store rid now).1 = σ.store from by
          simp only [retry_job, hg]]]
      exact ⟨⟨hWF, hND⟩, hNF, hCur⟩
    | some j0 =>
      by_cases hd : j0.state = "dead"
      · have hcond : ¬ (j0.state ≠ JobState.DEAD.value) := by
          simp [JobState.value, hd]
        have hid0 : j0.id = rid := hWF (rid, j0) (get_job_mem σ.store rid j0 hg)
        have hres : (retry_job σ.store rid now).1 =
            save_job σ.store (Job.update_state { j0 with attempts := 0 }
              JobState.PENDING none none now) := by
          simp only [retry_job, hg]
          rw [if_neg hcond]
        refine ⟨?_, ?_, ?_⟩
        · show WFStore (retry_job σ.store rid now).1
          rw [hres]
          exact wf_save_job σ.store _ ⟨hWF, hND⟩
        · intro q hq
          rw [show ((⟨(retry_job σ.store rid now).1, σ.current⟩ :
            SysState)).store = (retry_job σ.store rid now).1 from rfl, hres] at hq
          rcases mem_save_job σ.store _ q hq with ⟨hmem, _⟩ | ⟨_, hv⟩
          · exact hNF q hmem
          · rw [hv]
            intro hc
            rw [show (Job.update_state { j0 with attempts := 0 }
              JobState.PENDING none none now).state = "pending" from rfl] at hc
            exact absurd hc (by decide)
        · intro jc hjc
          obtain ⟨hg2, hp2⟩ := hCur jc hjc
          refine ⟨?_, hp2⟩
          have hne : jc.id ≠ rid := by
            intro hc
            rw [hc, hg] at hg2
            have : j0 = jc := Option.some.inj hg2
            rw [← this] at hp2
            rw [hd] at hp2
            exact absurd hp2 (by decide)
          show get_job (retry_job σ.store rid now).1 jc.id = some jc
          rw [hres]
          have h2 : get_job (save_job σ.store
              (Job.update_state { j0 with attempts := 0 }
                JobState.PENDING none none now)) jc.id =
              get_job σ.store jc.id := by
            apply get_job_save_ne
            rw [show (Job.update_state { j0 with attempts := 0 }
              JobState.PENDING none none now).id = rid from hid0]
            exact hne
          rw [h2]
          exact hg2
      · have hcond : j0.state ≠ JobState.DEAD.value := by
          simpa [JobState.value] using hd
        rw [show (⟨(retry_job σ.store rid now).1, σ.current⟩ : SysState) = σ from
          by rw [show (retry_job σ.store rid now).1 = σ.store from by
            simp only [retry_job, hg]
            rw [if_pos hcond]]]
        exact ⟨⟨hWF, hND⟩, hNF, hCur⟩
  | claim now hidle =>
    cases hp : get_jobs_by_state σ.store JobState.PENDING with
    | nil =>
      have hfl : get_jobs_by_state σ.store JobState.FAILED = [] :=
        no_failed_list σ.store hNF
      have hres : get_next_job σ.store now = (σ.store, none) := by
        simp only [get_next_job, hp, hfl, List.find?]
      rw [show (⟨(get_next_job σ.store now).1, (get_next_job σ.store now).2⟩ :
        SysState) = ⟨σ.store, none⟩ from by rw [hres]]
      refine ⟨⟨hWF, hND⟩, hNF, ?_⟩
      intro jc hjc
      exact absurd hjc (by simp)
    | cons j0 rest =>
      have hres : get_next_job σ.store now =
          (save_job σ.store (j0.update_state JobState.PROCESSING none none now),
            some (j0.update_state JobState.PROCESSING none none now)) := by
        simp only [get_next_job, hp]
      rw [show (⟨(get_next_job σ.store now).1, (get_next_job σ.store now).2⟩ :
        SysState) =
        ⟨save_job σ.store (j0.update_state JobState.PROCESSING none none now),
          some (j0.update_state JobState.PROCESSING none none now)⟩ from
        by rw [hres]]
      refine ⟨?_, ?_, ?_⟩
      · exact wf_save_job σ.store _ ⟨hWF, hND⟩
      · intro q hq
        rcases mem_save_job σ.store _ q hq with ⟨hmem, _⟩ | ⟨_, hv⟩
        · exact hNF q hmem
        · rw [hv]
          intro hc
          rw [show (j0.update_state JobState.PROCESSING none none now).state =
            "processing" from rfl] at hc
          exact absurd hc (by decide)
      · intro jc hjc
        have hjc2 : j0.update_state JobState.PROCESSING none none now = jc :=
          Option.some.inj hjc
        rw [← hjc2]
        exact ⟨get_job_save_self σ.store _, rfl⟩
  | finish j outcome base now hcur =>
    refine ⟨?_, ?_, ?_⟩
    · show WFStore (process_job σ.store j outcome base now)
      cases outcome with
      | success out => exact wf_save_job σ.store _ ⟨hWF, hND⟩
      | failure e => exact wf_save_job σ.store _ ⟨hWF, hND⟩
    · intro q hq
      cases outcome with
      | success out =>
        rcases mem_save_job σ.store
            (j.update_state JobState.COMPLETED none (some out) now) q hq with
          ⟨hmem, _⟩ | ⟨_, hv⟩
        · exact hNF q hmem
        · rw [hv]
          intro hc
          rw [show (j.update_state JobState.COMPLETED none (some out) now).state =
            "completed" from rfl] at hc
          exact absurd hc (by decide)
      | failure e =>
        rcases mem_save_job σ.store (handle_job_failure j e base now).1 q hq with
          ⟨hmem, _⟩ | ⟨_, hv⟩
        · exact hNF q hmem
        · rw [hv]
          intro hc
          rcases handle_job_failure_state j e base now with hs | hs
          · rw [hs] at hc
            exact absurd hc (by decide)
          · rw [hs] at hc
            exact absurd hc (by decide)
    · intro jc hjc
      exact absurd hjc (by simp)

/-- The initial state satisfies the invariant. -/
theorem inv_init : Inv initState := by
  refine ⟨⟨?_, ?_⟩, ?_, ?_⟩
  · intro p hp
    exact absurd hp (List.not_mem_nil p)
  · simp [initState]
  · intro p hp
    exact absurd hp (List.not_mem_nil p)
  · intro j hj
    exact absurd hj (by simp [initState])

/-- Every reachable state satisfies the invariant. -/
theorem inv_reachable (σ : SysState) (h : Reachable σ) : Inv σ := by
  induction h with
  | refl => exact inv_init
  | tail hr hs ih => exact inv_step _ _ ih hs

/-- Enqueuing `exJobA` under id `a` is a step from the initial state. -/
theorem exStep01 : Step initState exσ1 := by
  have h : exσ1 = ⟨(enqueue initState.store 3 "cmd" (some "a") none "f" "t0").1,
      initState.current⟩ := by decide
  rw [h]
  exact Step.enq initState 3 "cmd" (some "a") none "f" "t0" (by decide)

/-- The worker claiming the pending job is a step. -/
theorem exStep12 : Step exσ1 exσ2 := by
  have h : exσ2 = ⟨(get_next_job exσ1.store "t1").1,
      (get_next_job exσ1.store "t1").2⟩ := by decide
  rw [h]
  exact Step.claim exσ1 "t1" rfl

/-- The claimed job completing successfully is a step. -/
theorem exStep23 : Step exσ2 exσ3 := by
  have h : exσ3 = ⟨process_job exσ2.store exJobP (ExecOutcome.success "out")
      2 "t2", none⟩ := by decide
  rw [h]
  exact Step.finish exσ2 exJobP (ExecOutcome.success "out") 2 "t2" rfl

/-- The claimed job failing retryably is a step. -/
theorem exStep24 : Step exσ2 exσ4 := by
  have h : exσ4 = ⟨process_job exσ2.store exJobP (ExecOutcome.failure "err")
      2 "t2", none⟩ := by decide
  rw [h]
  exact Step.finish exσ2 exJobP (ExecOutcome.failure "err") 2 "t2" rfl

/-- The worker re-claiming the once-failed job is a step. -/
theorem exStep45 : Step exσ4 exσ5 := by
  have h : exσ5 = ⟨(get_next_job exσ4.store "t3").1,
      (get_next_job exσ4.store "t3").2⟩ := by decide
  rw [h]
  exact Step.claim exσ4 "t3" rfl

/-- `exσ1` is reachable. -/
theorem exReach1 : Reachable exσ1 :=
  Relation.ReflTransGen.tail Relation.ReflTransGen.refl exStep01

/-- `exσ2` is reachable. -/
theorem exReach2 : Reachable exσ2 :=
  Relation.ReflTransGen.tail exReach1 exStep12

/-- `exσ4` is reachable. -/
theorem exReach4 : Reachable exσ4 :=
  Relation.ReflTransGen.tail exReach2 exStep24

/-- C5: along reachable executions a stored record becomes `completed` only
when it was stored as `processing` immediately before: completion is reached
exclusively through the pending → processing → completed path, and never
directly from `failed`. -/
theorem completed_only_entered_from_processing (σ σ' : SysState) (id : String)
    (hreach : Reachable σ) (hstep : Step σ σ')
    (hnew : (get_job σ'.store id).map Job.state = some "completed")
    (hold : (get_job σ.store id).map Job.state ≠ some "completed") :
    (get_job σ.store id).map Job.state = some "processing" := by
  rcases step_change σ σ' (inv_reachable σ hreach) hstep id with
    heq | ⟨jn, hjn, hch⟩
  · rw [heq] at hnew
    exact absurd hnew hold
  · rw [hjn] at hnew
    have hjnc : jn.state = "completed" := by simpa using hnew
    generalize hgen : get_job σ.store id = o at hch hold ⊢
    cases hch with
    | created j h1 h2 =>
      rw [h1] at hjnc
      exact absurd hjnc (by decide)
    | retried j now2 hdead =>
      rw [show (Job.update_state { j with attempts := 0 }
        JobState.PENDING none none now2).state = "pending" from rfl] at hjnc
      exact absurd hjnc (by decide)
    | claimed j now2 hpend =>
      rw [show (j.update_state JobState.PROCESSING none none now2).state =
        "processing" from rfl] at hjnc
      exact absurd hjnc (by decide)
    | finished j out now2 hproc =>
      simp [hproc]
    | failedOut j e now2 base hproc =>
      rcases handle_job_failure_state j e base now2 with hs | hs
      · rw [hs] at hjnc
        exact absurd hjnc (by decide)
      · rw [hs] at hjnc
        exact absurd hjnc (by decide)

/-- Witness for C5 at the successful completion step from `exσ2` to `exσ3`. -/
theorem completed_only_entered_from_processing_witness :
    (get_job exσ2.store "a").map Job.state = some "processing" :=
  completed_only_entered_from_processing exσ2 exσ3 "a" exReach2 exStep23
    (by decide) (by decide)

/-- C6 counterexample: manually retrying the stored dead job `d1` succeeds
and lowers its persisted `attempts` from 3 to 0, so the attempts counter is
not monotonically non-decreasing under every operation. -/
theorem retry_lowers_attempts_counterexample :
    (retry_job exDeadStore "d1" "t2").2 = true
    ∧ (get_job exDeadStore "d1").map Job.attempts = some 3
    ∧ (get_job (retry_job exDeadStore "d1" "t2").1 "d1").map Job.attempts =
        some 0 := by
  refine ⟨by decide, by decide, by decide⟩

/-- C6 amended: along reachable executions no step lowers a stored job's
`attempts`, except the manual retry of a `dead` job, which resets the counter
to 0 while re-queueing the job as `pending`. -/
theorem attempts_nondecreasing_except_dead_retry (σ σ' : SysState)
    (id : String) (j j' : Job) (hreach : Reachable σ) (hstep : Step σ σ')
    (hj : get_job σ.store id = some j) (hj' : get_job σ'.store id = some j') :
    j.attempts ≤ j'.attempts ∨
      (j.state = "dead" ∧ j'.attempts = 0 ∧ j'.state = "pending") := by
  rcases step_change σ σ' (inv_reachable σ hreach) hstep id with
    heq | ⟨jn, hjn, hch⟩
  · rw [heq, hj] at hj'
    rw [← Option.some.inj hj']
    exact Or.inl le_rfl
  · rw [hjn] at hj'
    have hjj : jn = j' := Option.some.inj hj'
    rw [hj] at hch
    subst hjj
    cases hch with
    | retried j2 now2 hdead =>
      right
      exact ⟨hdead, rfl, rfl⟩
    | claimed j2 now2 hpend =>
      left
      exact le_rfl
    | finished j2 out now2 hproc =>
      left
      exact le_rfl
    | failedOut j2 e now2 base hproc =>
      left
      rw [handle_job_failure_attempts j e base now2]
      exact Nat.le_succ _

/-- Witness for the amended C6 at the claim step from `exσ1` to `exσ2`. -/
theorem attempts_nondecreasing_witness :
    exJobA.attempts ≤ exJobP.attempts ∨
      (exJobA.state = "dead" ∧ exJobP.attempts = 0 ∧ exJobP.state = "pending") :=
  attempts_nondecreasing_except_dead_retry exσ1 exσ2 "a" exJobA exJobP
    exReach1 exStep12 (by decide) (by decide)

/-- C7: once set, `last_error` stays set across every step; a retryable
failure carries its nonempty error message through `failed` back to
`pending`; completing a job leaves `last_error` unchanged; and the manual
retry of a dead job leaves `last_error` unchanged. -/
theorem last_error_never_cleared :
    (∀ σ σ' id j j', Reachable σ → Step σ σ' →
        get_job σ.store id = some j → get_job σ'.store id = some j' →
        j.last_error.isSome = true → j'.last_error.isSome = true)
    ∧ (∀ (j : Job) (e : String) (base : Nat) (now : String),
        e ≠ "" → j.attempts + 1 < j.max_retries →
        (handle_job_failure j e base now).1.state = "pending"
        ∧ (handle_job_failure j e base now).1.last_error = some e)
    ∧ (∀ (j : Job) (out : Option String) (now : String),
        (j.update_state JobState.COMPLETED none out now).last_error =
          j.last_error)
    ∧ (∀ (s : Store) (id now : String) (j : Job),
        (∀ p ∈ s, p.2.id = p.1) →
        get_job s id = some j → j.state = "dead" →
        ∀ j', get_job (retry_job s id now).1 id = some j' →
          j'.last_error = j.last_error) := by
  refine ⟨?_, ?_, ?_, ?_⟩
  · intro σ σ' id j j' hreach hstep hj hj' hset
    rcases step_change σ σ' (inv_reachable σ hreach) hstep id with
      heq | ⟨jn, hjn, hch⟩
    · rw [heq, hj] at hj'
      rw [← Option.some.inj hj']
      exact hset
    · rw [hjn] at hj'
      have hjj : jn = j' := Option.some.inj hj'
      rw [hj] at hch
      subst hjj
      cases hch with
      | retried j2 now2 hdead => exact hset
      | claimed j2 now2 hpend => exact hset
      | finished j2 out now2 hproc => exact hset
      | failedOut j2 e now2 base hproc =>
        rw [handle_job_failure_last_error j e base now2]
        by_cases he : strTruthy (some e)
        · rw [if_pos he]
          rfl
        · rw [if_neg he]
          exact hset
  · intro j e base now he hlt
    have hretry : (j.increment_attempts now).should_retry =
        decide (j.attempts + 1 < j.max_retries) := rfl
    constructor
    · simp only [handle_job_failure]
      rw [hretry, decide_eq_true hlt]
      rfl
    · rw [handle_job_failure_last_error j e base now,
        if_pos (by simpa [strTruthy] using he)]
  · intro j out now
    rfl
  · intro s id now j hWF hg hdead j' hj'
    have hcond : ¬ (j.state ≠ JobState.DEAD.value) := by
      simp [JobState.value, hdead]
    have hid0 : j.id = id := hWF (id, j) (get_job_mem s id j hg)
    have hres : (retry_job s id now).1 =
        save_job s (Job.update_state { j with attempts := 0 }
          JobState.PENDING none none now) := by
      simp only [retry_job, hg]
      rw [if_neg hcond]
    rw [hres] at hj'
    have hsave : get_job (save_job s (Job.update_state { j with attempts := 0 }
        JobState.PENDING none none now)) id =
        some (Job.update_state { j with attempts := 0 }
          JobState.PENDING none none now) := by
      rw [← show (Job.update_state { j with attempts := 0 }
        JobState.PENDING none none now).id = id from hid0]
      exact get_job_save_self s _
    rw [hsave] at hj'
    rw [← Option.some.inj hj']
    rfl

/-- Witness for C7 at concrete inputs: the re-claim step keeps the recorded
error set; a retryable failure carries its message back to `pending`;
completion and a manual dead retry leave `last_error` unchanged. -/
theorem last_error_never_cleared_witness :
    exJobFP.last_error.isSome = true
    ∧ ((handle_job_failure exJobP "err" 2 "t2").1.state = "pending"
        ∧ (handle_job_failure exJobP "err" 2 "t2").1.last_error = some "err")
    ∧ ((exJobC.update_state JobState.COMPLETED none (some "o2") "t9").last_error
        = exJobC.last_error)
    ∧ (exDeadRetried.last_error = exDeadJob.last_error) := by
  refine ⟨?_, ?_, ?_, ?_⟩
  · exact last_error_never_cleared.1 exσ4 exσ5 "a" exJobF exJobFP exReach4
      exStep45 (by decide) (by decide) (by decide)
  · exact last_error_never_cleared.2.1 exJobP "err" 2 "t2" (by decide)
      (by decide)
  · exact last_error_never_cleared.2.2.1 exJobC (some "o2") "t9"
  · exact last_error_never_cleared.2.2.2 exDeadStore "d1" "t2" exDeadJob
      (by decide) (by decide) (by decide) exDeadRetried (by decide)

end QueueCtl
